import Mathlib

/-!
Shallow embedding of the bit-range engine of `src/bit-utils/BitUtils.cpp`
(the BitUtils namespace: bit addressing, bounds validation, get/set/flip,
fill, alias-safe copy, bitwise combinators, compare, shift, and the text
codec), together with theorems settling the specification claims.

Modelling conventions:
* Memory is a single byte-addressed space `Buf := List Nat` (one entry per
  byte).  A C pointer is a byte offset (`base`) into that space, so two
  views aliasing the same allocation are two `(base, start_bit, end_bit)`
  triples over the same `Buf`.  The target is little-endian, so the
  `_BITUTILS_IS_LITTLE_ENDIAN` branch of the source is the one embedded
  (mask `1 <<< ((i + start_bit) % CHAR_SIZE)`).
* Reads beyond the end of the list give byte `0` (`List.getD`), writes
  beyond the end are dropped (`List.set`); theorems that need the backing
  allocation to cover the view carry an explicit length hypothesis.
* `std::size_t` subtraction, which the source applies to possibly crossed
  bounds, is modelled by `subSizeT` with the explicit wraparound at
  `2 ^ 64`.
* A C++ function that can throw is modelled either as `Except Err`
  (read-only functions) or, for mutating functions, as `Buf × Option Err`
  returning the memory state at the moment the exception propagates, so
  that mutation-before-throw is observable.
-/

namespace BitUtils

/-- `CHAR_BIT` on the reference target. -/
def CHAR_SIZE : Nat := 8

/-- Modulus of `std::size_t` arithmetic (64-bit target). -/
def SIZE_T_MOD : Nat := 2 ^ 64

/-- `a - b` computed in `std::size_t` arithmetic (wraps around on underflow,
for operands below `SIZE_T_MOD`). -/
def subSizeT (a b : Nat) : Nat :=
  if b ≤ a then a - b else SIZE_T_MOD - (b - a)

/-- The byte-addressed memory: one list entry per byte of the address
space. -/
abbrev Buf := List Nat

/-- The error taxonomy of the source: `std::invalid_argument` for bad
bounds, `std::out_of_range` for a bad local index, and the
`std::invalid_argument` thrown by `from_str` on a character other than
`'0'`/`'1'`. -/
inductive Err where
  | invalidBounds
  | outOfRange
  | invalidCharacter
  deriving DecidableEq, Repr

/-- `BitUtils::size` (BitUtils.cpp:120-125): bytes needed for `n` bits. -/
def size (n : Nat) : Nat :=
  if n ≤ CHAR_SIZE then 1
  else
    let temp := (n / CHAR_SIZE) * CHAR_SIZE
    temp / CHAR_SIZE + (if temp < n then 1 else 0)

/-- Absolute bit `q` of the memory: bit `q % 8` of byte `q / 8`. -/
def bitAt (mem : Buf) (q : Nat) : Bool :=
  (mem.getD (q / CHAR_SIZE) 0).testBit (q % CHAR_SIZE)

/-- `_validateBounds(start_bit, end_bit, i)` (BitUtils.cpp:57-68). -/
def validateSE (s e i : Nat) : Option Err :=
  if s ≥ e then some .invalidBounds
  else if i ≥ e - s then some .outOfRange
  else none

/-- `_validateBounds(n, i)` (BitUtils.cpp:70-80); the source distinguishes
soft-bounded from unbounded only in the exception message. -/
def validateN (n i : Nat) : Option Err :=
  if n = 0 then some .invalidBounds
  else if i ≥ n then some .outOfRange
  else none

/-- Byte offset computed by the bounded `getPage` (BitUtils.cpp:82-96)
after validation: offset `0` when the view is exactly one byte wide,
otherwise `(i + start_bit) / CHAR_SIZE`. -/
def page (s e i : Nat) : Nat :=
  if e - s = CHAR_SIZE then 0 else (i + s) / CHAR_SIZE

/-- Byte offset computed by the `(n, i)` form of `getPage`
(BitUtils.cpp:98-112) after validation. -/
def pageN (n i : Nat) : Nat :=
  if n = CHAR_SIZE then 0 else i / CHAR_SIZE

/-- `BitUtils::get` bounded form (BitUtils.cpp:131-141). -/
def get (mem : Buf) (base s e i : Nat) : Except Err Bool :=
  match validateSE s e i with
  | some err => .error err
  | none =>
      .ok ((mem.getD (base + page s e i) 0).testBit ((i + s) % CHAR_SIZE))

/-- `BitUtils::get` `(n, i)` form (BitUtils.cpp:143-152). -/
def getn (mem : Buf) (base n i : Nat) : Except Err Bool :=
  match validateN n i with
  | some err => .error err
  | none => .ok ((mem.getD (base + pageN n i) 0).testBit (i % CHAR_SIZE))

/-- `BitUtils::flip` bounded form (BitUtils.cpp:154-164). -/
def flip (mem : Buf) (base s e i : Nat) : Buf × Option Err :=
  match validateSE s e i with
  | some err => (mem, some err)
  | none =>
      let p := base + page s e i
      (mem.set p ((mem.getD p 0) ^^^ (1 <<< ((i + s) % CHAR_SIZE))), none)

/-- `BitUtils::flip` `(n, i)` form (BitUtils.cpp:166-175). -/
def flipn (mem : Buf) (base n i : Nat) : Buf × Option Err :=
  match validateN n i with
  | some err => (mem, some err)
  | none =>
      let p := base + pageN n i
      (mem.set p ((mem.getD p 0) ^^^ (1 <<< (i % CHAR_SIZE))), none)

/-- `BitUtils::set` bounded form (BitUtils.cpp:177-192): unconditionally
ORs the mask in, then flips the bit back down when `b` is false. -/
def set (mem : Buf) (base s e i : Nat) (b : Bool) : Buf × Option Err :=
  match validateSE s e i with
  | some err => (mem, some err)
  | none =>
      let p := base + page s e i
      let m1 := mem.set p ((mem.getD p 0) ||| (1 <<< ((i + s) % CHAR_SIZE)))
      if b then (m1, none) else flip m1 base s e i

/-- `BitUtils::set` `(n, i)` form (BitUtils.cpp:194-208). -/
def setn (mem : Buf) (base n i : Nat) (b : Bool) : Buf × Option Err :=
  match validateN n i with
  | some err => (mem, some err)
  | none =>
      let p := base + pageN n i
      let m1 := mem.set p ((mem.getD p 0) ||| (1 <<< (i % CHAR_SIZE)))
      if b then (m1, none) else flipn m1 base n i

/-- Loop of the bounded `BitUtils::fill` (BitUtils.cpp:217-219), iterating
`set` over local indices `i, i+1, ...` for `cnt` steps, stopping at the
first exception. -/
def fillLoop (base s e : Nat) (b : Bool) :
    Buf → Nat → Nat → Buf × Option Err
  | mem, _, 0 => (mem, none)
  | mem, i, cnt + 1 =>
      match set mem base s e i b with
      | (m, some err) => (m, some err)
      | (m, none) => fillLoop base s e b m (i + 1) cnt

/-- `BitUtils::fill` bounded form (BitUtils.cpp:212-220): bit-by-bit loop
over `end_bit - start_bit` local indices (a `std::size_t` difference). -/
def fill (mem : Buf) (base s e : Nat) (b : Bool) : Buf × Option Err :=
  fillLoop base s e b mem 0 (subSizeT e s)

/-- `memset`-style helper: write byte value `v` to the `cnt` bytes starting
at `base` (writes past the end of the list are dropped). -/
def memsetBytes (mem : Buf) (base v cnt : Nat) : Buf :=
  (List.range cnt).foldl (fun m k => m.set (base + k) v) mem

/-- `BitUtils::fill` `(n)` form (BitUtils.cpp:222-230): single-byte store
when `size n == 1`, else `memset` over `size n` bytes.  No validation, no
exception. -/
def filln (mem : Buf) (base n : Nat) (b : Bool) : Buf :=
  if size n = 1 then mem.set base (if b then 255 else 0)
  else memsetBytes mem base (if b then 255 else 0) (size n)

/-- `do_bounds_overlap` (BitUtils.cpp:31-43) with pointers as byte
addresses: identical pointers always overlap, otherwise each view's extent
is `[ptr, ptr + (end_bit - start_bit))` measured in bits-as-bytes. -/
def doBoundsOverlap (lb ls le rb rs re : Nat) : Bool :=
  lb = rb || lb + subSizeT le ls ≥ rb || rb + subSizeT re rs ≥ lb

/-- Ascending loop of the overlapping branch of `BitUtils::copy`
(BitUtils.cpp:256-258): `set(dst, i, get(src, i))` for `cnt` indices
starting at `i`. -/
def copyAscLoop (sb ss se db ds de : Nat) :
    Buf → Nat → Nat → Buf × Option Err
  | mem, _, 0 => (mem, none)
  | mem, i, cnt + 1 =>
      match get mem sb ss se i with
      | .error err => (mem, some err)
      | .ok v =>
          match set mem db ds de i v with
          | (m, some err) => (m, some err)
          | (m, none) => copyAscLoop sb ss se db ds de m (i + 1) cnt

/-- Descending loop of the overlapping branch of `BitUtils::copy`
(BitUtils.cpp:251-253): indices `i-1, i-2, ..., 0`. -/
def copyDescLoop (sb ss se db ds de : Nat) : Buf → Nat → Buf × Option Err
  | mem, 0 => (mem, none)
  | mem, i + 1 =>
      match get mem sb ss se i with
      | .error err => (mem, some err)
      | .ok v =>
          match set mem db ds de i v with
          | (m, some err) => (m, some err)
          | (m, none) => copyDescLoop sb ss se db ds de m i

/-- The overlapping branch of `BitUtils::copy` (BitUtils.cpp:249-260):
descending local order when `src_start_bit < dst_start_bit`, ascending
otherwise. -/
def copyAliasPath (mem : Buf) (sb ss se db ds de minN : Nat) :
    Buf × Option Err :=
  if ss < ds then copyDescLoop sb ss se db ds de mem minN
  else copyAscLoop sb ss se db ds de mem 0 minN

/-- Loop of `bitwise_or` as invoked from the non-overlapping branch of
`copy` (BitUtils.cpp:470-476 as called at 263-267): the `right` and `dst`
operands there are the same view on `min_n`-wide windows. -/
def copyOrLoop (sb ss db ds minN : Nat) :
    Buf → Nat → Nat → Buf × Option Err
  | mem, _, 0 => (mem, none)
  | mem, i, cnt + 1 =>
      match get mem sb ss (ss + minN) i with
      | .error err => (mem, some err)
      | .ok l =>
          match get mem db ds (ds + minN) i with
          | .error err => (mem, some err)
          | .ok r =>
              match set mem db ds (ds + minN) i (l || r) with
              | (m, some err) => (m, some err)
              | (m, none) => copyOrLoop sb ss db ds minN m (i + 1) cnt

/-- `BitUtils::copy` (BitUtils.cpp:232-269).  The non-overlapping branch
zero-fills the destination window and ORs the source in; the `bitwise_or`
call there has `right` and `dst` equal (same pointer and bounds), so its
`left == right` shortcut reduces to `sb = db` followed by the `left == dst`
no-op, and otherwise its `min_n` ascending loop runs — that dispatch is
inlined here, which breaks the (dynamically unreachable) `copy` →
`bitwise_or` → `copy` cycle of the source. -/
def copy (mem : Buf) (sb ss se db ds de : Nat) : Buf × Option Err :=
  if sb = db ∧ ss = ds ∧ se = de then (mem, none)
  else
    let minN := min (subSizeT se ss) (subSizeT de ds)
    if doBoundsOverlap sb ss se db ds de then
      copyAliasPath mem sb ss se db ds de minN
    else
      match fill mem db ds (ds + minN) false with
      | (m, some err) => (m, some err)
      | (m, none) =>
          if sb = db then (m, none)
          else copyOrLoop sb ss db ds minN m 0 minN

/-- Ascending loop of the nine-argument `bitwise_xor`
(BitUtils.cpp:559-567): operands are read and written through
`min_n`-wide windows. -/
def xorAscLoop (lb ls rb rs db ds minN : Nat) :
    Buf → Nat → Nat → Buf × Option Err
  | mem, _, 0 => (mem, none)
  | mem, i, cnt + 1 =>
      match get mem lb ls (ls + minN) i with
      | .error err => (mem, some err)
      | .ok l =>
          match get mem rb rs (rs + minN) i with
          | .error err => (mem, some err)
          | .ok r =>
              match set mem db ds (ds + minN) i (xor l r) with
              | (m, some err) => (m, some err)
              | (m, none) => xorAscLoop lb ls rb rs db ds minN m (i + 1) cnt

/-- Descending loop of the nine-argument `bitwise_xor`
(BitUtils.cpp:559-567 with `step = -1`). -/
def xorDescLoop (lb ls rb rs db ds minN : Nat) :
    Buf → Nat → Buf × Option Err
  | mem, 0 => (mem, none)
  | mem, i + 1 =>
      match get mem lb ls (ls + minN) i with
      | .error err => (mem, some err)
      | .ok l =>
          match get mem rb rs (rs + minN) i with
          | .error err => (mem, some err)
          | .ok r =>
              match set mem db ds (ds + minN) i (xor l r) with
              | (m, some err) => (m, some err)
              | (m, none) => xorDescLoop lb ls rb rs db ds minN m i

/-- Nine-argument `BitUtils::bitwise_xor` (BitUtils.cpp:514-568): the
`left == right` (same pointer and bounds) shortcut zero-fills the
destination; otherwise `min_n` is the least of the three widths and the
iteration direction is descending exactly when `left`/`right` overlap,
`left`/`dst` overlap, and either operand's start precedes `dst`'s. -/
def bitwise_xor (mem : Buf) (lb ls le rb rs re db ds de : Nat) :
    Buf × Option Err :=
  if lb = rb ∧ ls = rs ∧ le = re then fill mem db ds de false
  else
    let minN := min (min (subSizeT le ls) (subSizeT re rs)) (subSizeT de ds)
    if doBoundsOverlap lb ls le rb rs re ∧ doBoundsOverlap lb ls le db ds de
        ∧ (ls < ds ∨ rs < ds) then
      xorDescLoop lb ls rb rs db ds minN mem minN
    else
      xorAscLoop lb ls rb rs db ds minN mem 0 minN

/-- Five-argument `BitUtils::bitwise_xor` (BitUtils.cpp:570-582): same
bounds for all three operands. -/
def bitwise_xor5 (mem : Buf) (lb rb db s e : Nat) : Buf × Option Err :=
  bitwise_xor mem lb s e rb s e db s e

/-- Byte loop of the `(n)` form of `bitwise_xor` (BitUtils.cpp:593-597):
`i` steps through `0, 8, 16, ...` below `n`; each `getPage` call
validates `(n, i)`. -/
def xorBytesLoop (lb rb db n : Nat) : Buf → Nat → Nat → Buf × Option Err
  | mem, _, 0 => (mem, none)
  | mem, i, cnt + 1 =>
      match validateN n i with
      | some err => (mem, some err)
      | none =>
          let v := (mem.getD (lb + pageN n i) 0) ^^^ (mem.getD (rb + pageN n i) 0)
          xorBytesLoop lb rb db n (mem.set (db + pageN n i) v)
            (i + CHAR_SIZE) cnt

/-- `(n)` form of `BitUtils::bitwise_xor` (BitUtils.cpp:584-598):
`left == right` (pointer equality) degenerates to `fill(dst, n, 0)`,
otherwise a byte-by-byte XOR over `ceil(n / 8)` byte steps. -/
def bitwise_xorn (mem : Buf) (lb rb db n : Nat) : Buf × Option Err :=
  if lb = rb then (filln mem db n false, none)
  else xorBytesLoop lb rb db n mem 0 ((n + CHAR_SIZE - 1) / CHAR_SIZE)

/-- Flip loop of the overlapping branch of `bitwise_not`
(BitUtils.cpp:620-622), ascending: `flip(dst, i)` through the full
destination bounds. -/
def notAscLoop (db ds de : Nat) : Buf → Nat → Nat → Buf × Option Err
  | mem, _, 0 => (mem, none)
  | mem, i, cnt + 1 =>
      match flip mem db ds de i with
      | (m, some err) => (m, some err)
      | (m, none) => notAscLoop db ds de m (i + 1) cnt

/-- Flip loop of the overlapping branch of `bitwise_not`, descending. -/
def notDescLoop (db ds de : Nat) : Buf → Nat → Buf × Option Err
  | mem, 0 => (mem, none)
  | mem, i + 1 =>
      match flip mem db ds de i with
      | (m, some err) => (m, some err)
      | (m, none) => notDescLoop db ds de m i

/-- The overlapping branch of `bitwise_not` (BitUtils.cpp:608-623):
flip each of the `min_n` destination bits, descending when
`src_start_bit < dst_start_bit`. -/
def notAliasPath (mem : Buf) (db ds de minN : Nat) (descending : Bool) :
    Buf × Option Err :=
  if descending then notDescLoop db ds de mem minN
  else notAscLoop db ds de mem 0 minN

/-- Six-argument `BitUtils::bitwise_not` (BitUtils.cpp:600-632): in-place
flips when the views overlap, otherwise fill-with-ones then XOR the
source in. -/
def bitwise_not (mem : Buf) (sb ss se db ds de : Nat) : Buf × Option Err :=
  if doBoundsOverlap sb ss se db ds de then
    let minN := min (subSizeT de ds) (subSizeT se ss)
    notAliasPath mem db ds de minN (decide (ss < ds))
  else
    match fill mem db ds de true with
    | (m, some err) => (m, some err)
    | (m, none) => bitwise_xor m sb ss se db ds de db ds de

/-- Scan loop of the bounded `BitUtils::compare` (BitUtils.cpp:813-821):
reads both operands through their full bounds and returns at the first
index where the bits differ. -/
def compareLoop (mem : Buf) (lb ls le rb rs re : Nat) :
    Nat → Nat → Except Err Int
  | _, 0 => .ok 0
  | i, cnt + 1 =>
      match get mem lb ls le i with
      | .error err => .error err
      | .ok l =>
          match get mem rb rs re i with
          | .error err => .error err
          | .ok r =>
              if xor l r then .ok (if l ∧ ¬r then 1 else -1)
              else compareLoop mem lb ls le rb rs re (i + 1) cnt

/-- Bounded `BitUtils::compare` (BitUtils.cpp:802-822): scan the common
prefix of the two widths from local index 0 upward. -/
def compare (mem : Buf) (lb ls le rb rs re : Nat) : Except Err Int :=
  compareLoop mem lb ls le rb rs re 0
    (min (subSizeT le ls) (subSizeT re rs))

/-- Four-argument `BitUtils::compare` (BitUtils.cpp:831-839). -/
def compare4 (mem : Buf) (lb rb s e : Nat) : Except Err Int :=
  compare mem lb s e rb s e

/-- Sign of `memcmp` over `cnt` bytes at addresses `lb` and `rb`. -/
def memcmpSign (mem : Buf) : Nat → Nat → Nat → Int
  | _, _, 0 => 0
  | lb, rb, cnt + 1 =>
      let x := mem.getD lb 0
      let y := mem.getD rb 0
      if x < y then -1
      else if y < x then 1
      else memcmpSign mem (lb + 1) (rb + 1) cnt

/-- `(n)` form of `BitUtils::compare` (BitUtils.cpp:824-829):
`memcmp(left, right, size(n))`, modelled by the sign of the bytewise
lexicographic comparison. -/
def comparen (mem : Buf) (lb rb n : Nat) : Int :=
  memcmpSign mem lb rb (size n)

/-- `BitUtils::shift_left` (BitUtils.cpp:726-744). -/
def shift_left (mem : Buf) (base s e k : Nat) : Buf × Option Err :=
  if k = 0 then (mem, none)
  else if k ≥ subSizeT e s then fill mem base s e false
  else
    match copy mem base (s + k) e base s (e - k) with
    | (m, some err) => (m, some err)
    | (m, none) => fill m base (e - k) e false

/-- `BitUtils::shift_right` (BitUtils.cpp:754-772). -/
def shift_right (mem : Buf) (base s e k : Nat) : Buf × Option Err :=
  if k = 0 then (mem, none)
  else if k ≥ subSizeT e s then fill mem base s e false
  else
    match copy mem base s (e - k) base (s + k) e with
    | (m, some err) => (m, some err)
    | (m, none) => fill m base s (s + k) false

/-- Character loop of the stream form of `BitUtils::str`
(BitUtils.cpp:875-877): one `'1'`/`'0'` per bit, local index 0 first. -/
def strLoop (mem : Buf) (base s e : Nat) :
    Nat → Nat → Except Err (List Char)
  | _, 0 => .ok []
  | i, cnt + 1 =>
      match get mem base s e i with
      | .error err => .error err
      | .ok v =>
          match strLoop mem base s e (i + 1) cnt with
          | .error err => .error err
          | .ok rest => .ok ((if v then '1' else '0') :: rest)

/-- `BitUtils::str` returning a string (BitUtils.cpp:867-888): empty when
the width is zero, else the bit-by-bit render. -/
def str (mem : Buf) (base s e : Nat) : Except Err (List Char) :=
  if subSizeT e s = 0 then .ok []
  else strLoop mem base s e 0 (subSizeT e s)

/-- Character loop of `BitUtils::from_str` (BitUtils.cpp:930-939):
`set(block, i, c == '1')` per consumed character, `InvalidCharacter` on
anything else; the memory state at the moment an exception propagates is
returned alongside the error. -/
def fromStrLoop (base s e : Nat) (cs : List Char) :
    Buf → Nat → Nat → Buf × Option Err
  | mem, _, 0 => (mem, none)
  | mem, i, cnt + 1 =>
      let c := cs.getD i ' '
      if c = '0' then
        match set mem base s e i false with
        | (m, some err) => (m, some err)
        | (m, none) => fromStrLoop base s e cs m (i + 1) cnt
      else if c = '1' then
        match set mem base s e i true with
        | (m, some err) => (m, some err)
        | (m, none) => fromStrLoop base s e cs m (i + 1) cnt
      else (mem, some .invalidCharacter)

/-- `BitUtils::from_str` (BitUtils.cpp:920-940): consumes
`min(end_bit - start_bit, length)` characters. -/
def from_str (mem : Buf) (base s e : Nat) (cs : List Char) :
    Buf × Option Err :=
  fromStrLoop base s e cs mem 0 (min (subSizeT e s) cs.length)

/-! ### Claim-side reference definitions

The two definitions below follow the words of the specification, not the
source; they exist to be compared with the embedded code. -/

/-- Write loop of the reference copy: `set(dst, i, tmp[i])` ascending over
the pre-read temporary. -/
def copyRefWriteLoop (db ds de : Nat) (tmp : List Bool) :
    Buf → Nat → Nat → Buf × Option Err
  | mem, _, 0 => (mem, none)
  | mem, i, cnt + 1 =>
      match set mem db ds de i (tmp.getD i false) with
      | (m, some err) => (m, some err)
      | (m, none) => copyRefWriteLoop db ds de tmp m (i + 1) cnt

/-- Read loop of the reference copy: collect `get(src, i)` for
`i < cnt` into a fresh non-aliased temporary. -/
def copyRefReadLoop (mem : Buf) (sb ss se : Nat) :
    Nat → Nat → Except Err (List Bool)
  | _, 0 => .ok []
  | i, cnt + 1 =>
      match get mem sb ss se i with
      | .error err => .error err
      | .ok v =>
          match copyRefReadLoop mem sb ss se (i + 1) cnt with
          | .error err => .error err
          | .ok rest => .ok (v :: rest)

/-- Reference copy per the specification's words: first read the
`min(src_width, dst_width)` source bits into a fresh non-aliased temporary
buffer, then write them into the destination with `set`. -/
def copyRef (mem : Buf) (sb ss se db ds de : Nat) : Buf × Option Err :=
  let minN := min (subSizeT se ss) (subSizeT de ds)
  match copyRefReadLoop mem sb ss se 0 minN with
  | .error err => (mem, some err)
  | .ok tmp => copyRefWriteLoop db ds de tmp mem 0 minN

/-- The bit a view addresses at local index `i`, as a pure value: the
absolute position combines the page byte with the in-byte offset. -/
def bitPos (base s e i : Nat) : Nat :=
  CHAR_SIZE * (base + page s e i) + (i + s) % CHAR_SIZE

/-- Pure view read: the bit `get` returns when its validation passes. -/
def viewBit (mem : Buf) (base s e i : Nat) : Bool :=
  bitAt mem (bitPos base s e i)

/-- Comparison per the specification's words: scan local index `i` from 0
upward over the common width; at the first index where the two view bits
differ return `+1` when the left bit is set and `-1` otherwise; return `0`
when no index differs. -/
def compareSpec (mem : Buf) (lb ls le rb rs re : Nat) : Int :=
  let minN := min (le - ls) (re - rs)
  match (List.range minN).find? (fun i =>
      viewBit mem lb ls le i != viewBit mem rb rs re i) with
  | some i => if viewBit mem lb ls le i then 1 else -1
  | none => 0

/-! ### Helper lemmas: list access and bit masks -/

theorem getD_set_self (l : Buf) (p v : Nat) (h : p < l.length) :
    (l.set p v).getD p 0 = v := by
  induction l generalizing p with
  | nil => simp at h
  | cons a t ih =>
      cases p with
      | zero => simp [List.set, List.getD]
      | succ p =>
          simp only [List.length_cons, Nat.succ_lt_succ_iff] at h
          simpa [List.set, List.getD] using ih p h

theorem getD_set_ne (l : Buf) (p q v : Nat) (h : p ≠ q) :
    (l.set p v).getD q 0 = l.getD q 0 := by
  induction l generalizing p q with
  | nil => simp [List.set]
  | cons a t ih =>
      cases p with
      | zero =>
          cases q with
          | zero => exact absurd rfl h
          | succ q => simp [List.set, List.getD]
      | succ p =>
          cases q with
          | zero => simp [List.set, List.getD]
          | succ q =>
              simp only [List.set, List.getD_cons_succ]
              exact ih p q (fun hpq => h (congrArg Nat.succ hpq))

theorem set_getD_self (l : Buf) (p : Nat) : l.set p (l.getD p 0) = l := by
  induction l generalizing p with
  | nil => simp
  | cons a t ih =>
      cases p with
      | zero => simp [List.set, List.getD]
      | succ p =>
          show a :: t.set p ((a :: t).getD (p + 1) 0) = a :: t
          rw [List.getD_cons_succ, ih p]

theorem length_set (l : Buf) (p v : Nat) : (l.set p v).length = l.length :=
  List.length_set l p v

theorem testBit_or_mask (x m k : Nat) :
    (x ||| 1 <<< m).testBit k = (x.testBit k || decide (k = m)) := by
  have h1 : (1 : Nat) <<< m = 2 ^ m := by
    simp [Nat.shiftLeft_eq]
  rw [h1, Nat.testBit_or, Nat.testBit_two_pow]
  by_cases h : m = k <;> simp [h, eq_comm]

theorem testBit_clearBit (x m k : Nat) :
    ((x ||| 1 <<< m) ^^^ 1 <<< m).testBit k
      = (x.testBit k && decide (k ≠ m)) := by
  have h1 : (1 : Nat) <<< m = 2 ^ m := by
    simp [Nat.shiftLeft_eq]
  rw [h1, Nat.testBit_xor, Nat.testBit_or, Nat.testBit_two_pow]
  by_cases h : m = k <;> simp [h, eq_comm]

theorem or_mask_of_testBit (x m : Nat) (h : x.testBit m = true) :
    x ||| 1 <<< m = x := by
  apply Nat.eq_of_testBit_eq
  intro k
  rw [testBit_or_mask]
  by_cases hk : k = m <;> simp [hk, h]

theorem clear_mask_of_testBit (x m : Nat) (h : x.testBit m = false) :
    (x ||| 1 <<< m) ^^^ 1 <<< m = x := by
  apply Nat.eq_of_testBit_eq
  intro k
  rw [testBit_clearBit]
  by_cases hk : k = m <;> simp [hk, h]

theorem bitAt_decompose (mem : Buf) (p r : Nat) (hr : r < CHAR_SIZE) :
    bitAt mem (CHAR_SIZE * p + r) = (mem.getD p 0).testBit r := by
  have hdiv : (CHAR_SIZE * p + r) / CHAR_SIZE = p := by
    rw [Nat.mul_add_div (by decide : 0 < CHAR_SIZE), Nat.div_eq_of_lt hr,
      Nat.add_zero]
  have hmod : (CHAR_SIZE * p + r) % CHAR_SIZE = r := by
    rw [Nat.mul_comm, Nat.add_comm, Nat.add_mul_mod_self_right]
    exact Nat.mod_eq_of_lt hr
  rw [bitAt, hdiv, hmod]

theorem bitAt_set_byte_ne (mem : Buf) (p v q : Nat) (h : q / CHAR_SIZE ≠ p) :
    bitAt (mem.set p v) q = bitAt mem q := by
  rw [bitAt, bitAt, getD_set_ne mem p (q / CHAR_SIZE) v (fun hp => h hp.symm)]

/-! ### Helper lemmas: single-bit accessors -/

theorem validateSE_eq_none (s e i : Nat) (hi : i < e - s) :
    validateSE s e i = none := by
  have hse : ¬ s ≥ e := by omega
  have hio : ¬ i ≥ e - s := by omega
  simp [validateSE, hse, hio]

theorem validateSE_eq_some (s e i : Nat) (hi : ¬ i < e - s) :
    ∃ err, validateSE s e i = some err := by
  rw [validateSE]
  by_cases hse : s ≥ e
  · refine ⟨Err.invalidBounds, ?_⟩
    simp [hse]
  · have hio : i ≥ e - s := by omega
    refine ⟨Err.outOfRange, ?_⟩
    simp [hse, hio]

theorem get_eq_viewBit (mem : Buf) (base s e i : Nat) (hi : i < e - s) :
    get mem base s e i = .ok (viewBit mem base s e i) := by
  rw [get, validateSE_eq_none s e i hi, viewBit, bitPos,
    bitAt_decompose _ _ _ (Nat.mod_lt _ (by decide))]

theorem set_eq_ok (mem : Buf) (base s e i : Nat) (b : Bool)
    (hi : i < e - s) :
    set mem base s e i b =
      (mem.set (base + page s e i)
        (if b then
          mem.getD (base + page s e i) 0 ||| 1 <<< ((i + s) % CHAR_SIZE)
        else
          (mem.getD (base + page s e i) 0 ||| 1 <<< ((i + s) % CHAR_SIZE))
            ^^^ 1 <<< ((i + s) % CHAR_SIZE)), none) := by
  rw [set, validateSE_eq_none s e i hi]
  cases b with
  | true => rfl
  | false =>
      simp only [Bool.false_eq_true, if_false, flip,
        validateSE_eq_none s e i hi]
      by_cases hp : base + page s e i < mem.length
      · rw [getD_set_self _ _ _ hp, List.set_set]
      · have hlen : mem.length ≤ base + page s e i := Nat.le_of_not_lt hp
        rw [List.set_eq_of_length_le hlen, List.set_eq_of_length_le hlen,
          List.set_eq_of_length_le hlen]

theorem set_length (mem : Buf) (base s e i : Nat) (b : Bool) :
    (set mem base s e i b).1.length = mem.length := by
  by_cases hi : i < e - s
  · rw [set_eq_ok mem base s e i b hi]
    exact List.length_set mem _ _
  · obtain ⟨err, herr⟩ := validateSE_eq_some s e i hi
    rw [set, herr]

theorem bitPos_lt_mask (_base s _e i : Nat) :
    (i + s) % CHAR_SIZE < CHAR_SIZE := Nat.mod_lt _ (by decide)

theorem bitPos_div (base s e i : Nat) :
    bitPos base s e i / CHAR_SIZE = base + page s e i := by
  rw [bitPos, Nat.mul_add_div (by decide : 0 < CHAR_SIZE),
    Nat.div_eq_of_lt (bitPos_lt_mask base s e i), Nat.add_zero]

theorem bitPos_mod (base s e i : Nat) :
    bitPos base s e i % CHAR_SIZE = (i + s) % CHAR_SIZE := by
  rw [bitPos, Nat.mul_comm, Nat.add_comm, Nat.add_mul_mod_self_right]
  exact Nat.mod_eq_of_lt (bitPos_lt_mask base s e i)

theorem set_bitAt_ne (mem : Buf) (base s e i : Nat) (b : Bool)
    (hi : i < e - s) (q : Nat) (hq : q ≠ bitPos base s e i) :
    bitAt (set mem base s e i b).1 q = bitAt mem q := by
  rw [set_eq_ok mem base s e i b hi]
  set p := base + page s e i with hp
  by_cases hqp : q / CHAR_SIZE = p
  · -- same byte, different bit offset
    have hqm : q % CHAR_SIZE ≠ (i + s) % CHAR_SIZE := by
      intro hm
      apply hq
      rw [bitPos, ← hp, ← hqp, ← hm]
      exact (Nat.div_add_mod q CHAR_SIZE).symm
    by_cases hlen : p < mem.length
    · rw [bitAt, hqp, getD_set_self _ _ _ hlen, bitAt, hqp]
      cases b with
      | true =>
          rw [if_pos rfl, testBit_or_mask]
          simp [hqm]
      | false =>
          rw [if_neg Bool.false_ne_true, testBit_clearBit]
          simp [hqm]
    · rw [List.set_eq_of_length_le (Nat.le_of_not_lt hlen)]
  · exact bitAt_set_byte_ne mem p _ q hqp

theorem set_get_back (mem : Buf) (base s e i : Nat) (b : Bool)
    (hi : i < e - s) (hlen : base + page s e i < mem.length) :
    get (set mem base s e i b).1 base s e i = .ok b := by
  rw [set_eq_ok mem base s e i b hi,
    get_eq_viewBit _ base s e i hi, viewBit, bitAt, bitPos_div, bitPos_mod,
    getD_set_self _ _ _ hlen]
  cases b with
  | true =>
      rw [if_pos rfl, testBit_or_mask]
      simp
  | false =>
      rw [if_neg Bool.false_ne_true, testBit_clearBit]
      simp

theorem set_false_get (mem : Buf) (base s e i : Nat) (hi : i < e - s) :
    get (set mem base s e i false).1 base s e i = .ok false := by
  by_cases hlen : base + page s e i < mem.length
  · exact set_get_back mem base s e i false hi hlen
  · rw [set_eq_ok mem base s e i false hi,
      List.set_eq_of_length_le (Nat.le_of_not_lt hlen),
      get_eq_viewBit _ base s e i hi, viewBit, bitAt, bitPos_div, bitPos_mod]
    have h0 : mem.getD (base + page s e i) 0 = 0 := by
      rw [List.getD_eq_default]
      exact Nat.le_of_not_lt hlen
    simp only [List.getD] at h0 ⊢
    rw [h0]
    simp

theorem set_false_mono (mem : Buf) (base s e i q : Nat)
    (h : bitAt (set mem base s e i false).1 q = true) :
    bitAt mem q = true := by
  by_cases hi : i < e - s
  · rw [set_eq_ok mem base s e i false hi,
      if_neg Bool.false_ne_true] at h
    set p := base + page s e i with hp
    by_cases hqp : q / CHAR_SIZE = p
    · by_cases hlen : p < mem.length
      · rw [bitAt, hqp, getD_set_self _ _ _ hlen] at h
        rw [testBit_clearBit] at h
        rw [bitAt, hqp]
        exact (Bool.and_eq_true_iff.mp h).1
      · rwa [List.set_eq_of_length_le (Nat.le_of_not_lt hlen)] at h
    · rwa [bitAt_set_byte_ne mem p _ q hqp] at h
  · obtain ⟨e2, herr⟩ := validateSE_eq_some s e i hi
    rw [set, herr] at h
    exact h

theorem set_eq_err (mem : Buf) (base s e i : Nat) (b : Bool)
    (hse : s ≥ e) : set mem base s e i b = (mem, some .invalidBounds) := by
  rw [set, validateSE, if_pos hse]

theorem set_bitAt_hit (mem : Buf) (base s e i : Nat) (b : Bool)
    (hi : i < e - s) (hlen : base + page s e i < mem.length) :
    bitAt (set mem base s e i b).1 (bitPos base s e i) = b := by
  have h := set_get_back mem base s e i b hi hlen
  rw [get_eq_viewBit _ base s e i hi, viewBit] at h
  simpa using h

/-! ### Helper lemmas: fill -/

theorem subSizeT_of_le (a b : Nat) (h : b ≤ a) : subSizeT a b = a - b := by
  rw [subSizeT, if_pos h]

theorem bitPos_no_shortcut (base s e k : Nat)
    (hq : e - s = CHAR_SIZE → s = 0) (hk : k < e - s) :
    bitPos base s e k = CHAR_SIZE * base + (k + s) := by
  rw [bitPos, page]
  by_cases h8 : e - s = CHAR_SIZE
  · have hs0 : s = 0 := hq h8
    have hk8 : k < CHAR_SIZE := by omega
    rw [if_pos h8, hs0]
    simp [Nat.mod_eq_of_lt hk8]
  · rw [if_neg h8, Nat.mul_add, Nat.add_assoc, Nat.div_add_mod]

theorem fillLoop_spec (base s e : Nat) (b : Bool)
    (hq : e - s = CHAR_SIZE → s = 0) :
    ∀ cnt i mem, i + cnt ≤ e - s →
      (∀ k, k < e - s → base + (k + s) / CHAR_SIZE < mem.length) →
      ∃ m, fillLoop base s e b mem i cnt = (m, none) ∧
        m.length = mem.length ∧
        ∀ q, bitAt m q =
          if CHAR_SIZE * base + s + i ≤ q ∧ q < CHAR_SIZE * base + s + (i + cnt)
          then b else bitAt mem q := by
  intro cnt
  induction cnt with
  | zero =>
      intro i mem _ _
      refine ⟨mem, rfl, rfl, fun q => ?_⟩
      rw [if_neg (by omega)]
  | succ cnt ih =>
      intro i mem hle hlen
      have hi : i < e - s := by omega
      have hpage : page s e i = (i + s) / CHAR_SIZE := by
        rw [page]
        by_cases h8 : e - s = CHAR_SIZE
        · have hs0 : s = 0 := hq h8
          rw [if_pos h8, hs0, Nat.add_zero, Nat.div_eq_of_lt (by omega)]
        · rw [if_neg h8]
      have hplen : base + page s e i < mem.length := by
        rw [hpage]; exact hlen i hi
      rw [fillLoop, set_eq_ok mem base s e i b hi]
      have hlen2 : ∀ k, k < e - s →
          base + (k + s) / CHAR_SIZE < (set mem base s e i b).1.length := by
        intro k hk
        rw [set_length]
        exact hlen k hk
      rw [set_eq_ok mem base s e i b hi] at hlen2
      obtain ⟨m, hm, hlm, hbits⟩ := ih (i + 1) _ (by omega) hlen2
      refine ⟨m, hm, ?_, fun q => ?_⟩
      · rw [hlm, ← set_eq_ok mem base s e i b hi, set_length]
      · have hpos : bitPos base s e i = CHAR_SIZE * base + (s + i) := by
          rw [bitPos_no_shortcut base s e i hq hi, Nat.add_comm i s]
        by_cases hq1 : q = CHAR_SIZE * base + s + i
        · -- the bit written at this step; untouched afterwards
          rw [hbits q, if_neg (by omega), hq1]
          have := set_bitAt_hit mem base s e i b hi hplen
          rw [set_eq_ok mem base s e i b hi] at this
          rw [show CHAR_SIZE * base + s + i = CHAR_SIZE * base + (s + i) by omega,
            ← hpos, this, if_pos (by omega)]
        · by_cases hq2 : CHAR_SIZE * base + s + (i + 1) ≤ q ∧
              q < CHAR_SIZE * base + s + (i + 1 + cnt)
          · rw [hbits q, if_pos hq2, if_pos (by omega)]
          · rw [hbits q, if_neg hq2]
            have hne : q ≠ bitPos base s e i := by
              rw [hpos]; omega
            have := set_bitAt_ne mem base s e i b hi q hne
            rw [set_eq_ok mem base s e i b hi] at this
            rw [this, if_neg (by omega)]

theorem fill_writes (mem : Buf) (base s e : Nat) (b : Bool)
    (hse : s < e) (hq : e - s = CHAR_SIZE → s = 0)
    (hlen : ∀ k, k < e - s → base + (k + s) / CHAR_SIZE < mem.length) :
    ∃ m, fill mem base s e b = (m, none) ∧
      m.length = mem.length ∧
      ∀ q, bitAt m q =
        if CHAR_SIZE * base + s ≤ q ∧ q < CHAR_SIZE * base + e
        then b else bitAt mem q := by
  rw [fill, subSizeT_of_le e s (Nat.le_of_lt hse)]
  obtain ⟨m, hm, hlm, hbits⟩ :=
    fillLoop_spec base s e b hq (e - s) 0 mem (by omega) hlen
  refine ⟨m, hm, hlm, fun q => ?_⟩
  rw [hbits q]
  by_cases hin : CHAR_SIZE * base + s ≤ q ∧ q < CHAR_SIZE * base + e
  · rw [if_pos (by omega), if_pos hin]
  · rw [if_neg (by omega), if_neg hin]

theorem fillLoop_zero_get (base s e : Nat) :
    ∀ cnt i mem, i + cnt ≤ e - s →
      ∃ m, fillLoop base s e false mem i cnt = (m, none) ∧
        (∀ k, i ≤ k → k < i + cnt → get m base s e k = .ok false) ∧
        (∀ q, bitAt m q = true → bitAt mem q = true) := by
  intro cnt
  induction cnt with
  | zero =>
      intro i mem _
      exact ⟨mem, rfl, fun k hk1 hk2 => absurd hk2 (by omega),
        fun q h => h⟩
  | succ cnt ih =>
      intro i mem hle
      have hi : i < e - s := by omega
      rw [fillLoop, set_eq_ok mem base s e i false hi]
      obtain ⟨m, hm, hget, hmono⟩ := ih (i + 1) _ (by omega)
      refine ⟨m, hm, fun k hk1 hk2 => ?_, fun q h => ?_⟩
      · rcases Nat.eq_or_lt_of_le hk1 with hk | hk
        · -- k = i: cleared by this step and never set again
          subst hk
          have hcl := set_false_get mem base s e i hi
          rw [get_eq_viewBit _ base s e i hi] at hcl ⊢
          have hfalse : viewBit (set mem base s e i false).1 base s e i
              = false := by simpa using hcl
          rw [set_eq_ok mem base s e i false hi] at hfalse
          have hvb : viewBit m base s e i = false := by
            rcases hb : viewBit m base s e i with _ | _
            · rfl
            · exact absurd (hmono _ hb)
                (by
                  simp only [Bool.false_eq_true, if_false, viewBit,
                    List.getD, List.get?_eq_getElem?] at hfalse ⊢
                  simp [hfalse])
          rw [hvb]
        · exact hget k hk (by omega)
      · have h1 := hmono q h
        have h2 := set_false_mono mem base s e i q
        rw [set_eq_ok mem base s e i false hi] at h2
        exact h2 h1

/-! ### Helper lemmas: byte-level fill and the n-forms -/

theorem length_memsetBytes (mem : Buf) (base v : Nat) :
    ∀ cnt, (memsetBytes mem base v cnt).length = mem.length := by
  intro cnt
  induction cnt with
  | zero => rfl
  | succ cnt ih =>
      rw [memsetBytes, List.range_succ, List.foldl_append]
      rw [memsetBytes] at ih
      simp only [List.foldl_cons, List.foldl_nil]
      rw [List.length_set, ih]

theorem getD_memsetBytes (mem : Buf) (base v : Nat) :
    ∀ cnt j, (memsetBytes mem base v cnt).getD j 0 =
      if base ≤ j ∧ j < base + cnt ∧ j < mem.length then v
      else mem.getD j 0 := by
  intro cnt
  induction cnt with
  | zero =>
      intro j
      rw [if_neg (by omega)]
      rfl
  | succ cnt ih =>
      intro j
      rw [memsetBytes, List.range_succ, List.foldl_append]
      simp only [List.foldl_cons, List.foldl_nil]
      rw [show (List.range cnt).foldl (fun m k => m.set (base + k) v) mem
        = memsetBytes mem base v cnt from rfl]
      by_cases hj : j = base + cnt
      · subst hj
        by_cases hlen : base + cnt < mem.length
        · rw [getD_set_self _ _ _ (by rw [length_memsetBytes]; exact hlen)]
          rw [if_pos (by omega)]
        · rw [List.set_eq_of_length_le
            (by rw [length_memsetBytes]; omega), ih]
          rw [if_neg (by omega), if_neg (by omega)]
      · rw [getD_set_ne (memsetBytes mem base v cnt) (base + cnt) j v
          (fun h => hj h.symm), ih]
        by_cases hin : base ≤ j ∧ j < base + cnt ∧ j < mem.length
        · rw [if_pos hin, if_pos (by omega)]
        · rw [if_neg hin, if_neg (by omega)]

theorem filln_eq_memsetBytes (mem : Buf) (base n : Nat) (b : Bool) :
    filln mem base n b
      = memsetBytes mem base (if b then 255 else 0) (size n) := by
  rw [filln]
  by_cases h1 : size n = 1
  · rw [if_pos h1, h1, memsetBytes]
    show mem.set base _ = List.foldl _ mem [0]
    simp
  · rw [if_neg h1]

theorem size_pos (n : Nat) : 0 < size n := by
  rw [size]
  by_cases h8 : n ≤ CHAR_SIZE
  · simp [h8]
  · rw [if_neg h8]
    simp only [CHAR_SIZE] at h8 ⊢
    omega

theorem div_char_lt_size (n i : Nat) (hi : i < n) :
    i / CHAR_SIZE < size n := by
  rw [size]
  by_cases h8 : n ≤ CHAR_SIZE
  · rw [if_pos h8, Nat.div_eq_of_lt (by omega)]
    decide
  · rw [if_neg h8]
    simp only [CHAR_SIZE] at h8 hi ⊢
    by_cases hd : n / 8 * 8 < n
    · rw [if_pos hd]
      omega
    · rw [if_neg hd]
      omega

theorem pageN_lt_size (n i : Nat) (hi : i < n) : pageN n i < size n := by
  rw [pageN]
  by_cases h8 : n = CHAR_SIZE
  · rw [if_pos h8]
    exact size_pos n
  · rw [if_neg h8]
    exact div_char_lt_size n i hi

theorem validateN_eq_none (n i : Nat) (hi : i < n) :
    validateN n i = none := by
  have h0 : ¬ n = 0 := by omega
  have h1 : ¬ i ≥ n := by omega
  simp [validateN, h0, h1]

theorem getn_filln_false (mem : Buf) (db n i : Nat) (hi : i < n) :
    getn (filln mem db n false) db n i = .ok false := by
  rw [getn, validateN_eq_none n i hi]
  have hbyte : (filln mem db n false).getD (db + pageN n i) 0 = 0 := by
    rw [filln_eq_memsetBytes, getD_memsetBytes]
    by_cases hlen : db + pageN n i < mem.length
    · rw [if_pos ⟨by omega, by have := pageN_lt_size n i hi; omega, hlen⟩,
        if_neg Bool.false_ne_true]
    · rw [if_neg (by omega)]
      rw [List.getD_eq_default]
      omega
  rw [hbyte]
  simp

theorem getn_zero_n (mem : Buf) (base i : Nat) :
    getn mem base 0 i = .error .invalidBounds := by
  simp [getn, validateN]

theorem setn_zero_n (mem : Buf) (base i : Nat) (b : Bool) :
    setn mem base 0 i b = (mem, some .invalidBounds) := by
  simp [setn, validateN]

theorem flipn_zero_n (mem : Buf) (base i : Nat) :
    flipn mem base 0 i = (mem, some .invalidBounds) := by
  simp [flipn, validateN]

theorem get_invalid_bounds (mem : Buf) (base s e i : Nat) (hse : s ≥ e) :
    get mem base s e i = .error .invalidBounds := by
  rw [get, validateSE, if_pos hse]

theorem flip_invalid_bounds (mem : Buf) (base s e i : Nat) (hse : s ≥ e) :
    flip mem base s e i = (mem, some .invalidBounds) := by
  rw [flip, validateSE, if_pos hse]

theorem doBoundsOverlap_true (lb ls le rb rs re : Nat) :
    doBoundsOverlap lb ls le rb rs re = true := by
  rw [doBoundsOverlap]
  rcases Nat.le_total lb rb with h | h
  · have h2 : lb ≤ rb + subSizeT re rs := by omega
    simp [h2]
  · have h2 : rb ≤ lb + subSizeT le ls := by omega
    simp [h2]

theorem subSizeT_le_of_lt (a b : Nat) (h : b < a) : subSizeT a b = a - b :=
  subSizeT_of_le a b (Nat.le_of_lt h)

theorem copy_alias_branch (mem : Buf) (sb ss se db ds de : Nat) :
    copy mem sb ss se db ds de =
      if sb = db ∧ ss = ds ∧ se = de then (mem, none)
      else copyAliasPath mem sb ss se db ds de
        (min (subSizeT se ss) (subSizeT de ds)) := by
  rw [copy]
  by_cases hid : sb = db ∧ ss = ds ∧ se = de
  · rw [if_pos hid, if_pos hid]
  · rw [if_neg hid, if_neg hid]
    simp only [doBoundsOverlap_true, if_true]

theorem bitwise_not_alias_branch (mem : Buf) (sb ss se db ds de : Nat) :
    bitwise_not mem sb ss se db ds de =
      notAliasPath mem db ds de
        (min (subSizeT de ds) (subSizeT se ss)) (decide (ss < ds)) := by
  rw [bitwise_not]
  simp only [doBoundsOverlap_true, if_true]

theorem compareLoop_eq (mem : Buf) (lb ls le rb rs re : Nat)
    (hl : ls < le) (hr : rs < re) :
    ∀ cnt i, i + cnt ≤ min (le - ls) (re - rs) →
      compareLoop mem lb ls le rb rs re i cnt =
        .ok (match (List.range' i cnt).find? (fun j =>
            viewBit mem lb ls le j != viewBit mem rb rs re j) with
          | some j => if viewBit mem lb ls le j then 1 else -1
          | none => 0) := by
  intro cnt
  induction cnt with
  | zero =>
      intro i _
      rfl
  | succ cnt ih =>
      intro i hle
      rw [List.range'_succ i cnt 1]
      rw [compareLoop, get_eq_viewBit mem lb ls le i (by omega),
        get_eq_viewBit mem rb rs re i (by omega)]
      simp only [List.find?_cons]
      by_cases hd : viewBit mem lb ls le i = viewBit mem rb rs re i
      · have hx : xor (viewBit mem lb ls le i) (viewBit mem rb rs re i)
            = false := by
          rw [hd]
          simp
        have hb : (viewBit mem lb ls le i != viewBit mem rb rs re i)
            = false := by
          rw [hd]
          simp
        rw [hx, hb]
        simp only [Bool.false_eq_true, if_false]
        exact ih (i + 1) (by omega)
      · have hx : xor (viewBit mem lb ls le i) (viewBit mem rb rs re i)
            = true := by
          cases h1 : viewBit mem lb ls le i <;>
            cases h2 : viewBit mem rb rs re i <;> simp_all
        have hb : (viewBit mem lb ls le i != viewBit mem rb rs re i)
            = true := by
          cases h1 : viewBit mem lb ls le i <;>
            cases h2 : viewBit mem rb rs re i <;> simp_all
        rw [hx, hb]
        simp only [if_true]
        cases h1 : viewBit mem lb ls le i <;>
          cases h2 : viewBit mem rb rs re i <;> simp_all

theorem compare_eq_spec (mem : Buf) (lb ls le rb rs re : Nat)
    (hl : ls < le) (hr : rs < re) :
    compare mem lb ls le rb rs re
      = .ok (compareSpec mem lb ls le rb rs re) := by
  rw [compare, subSizeT_le_of_lt le ls hl, subSizeT_le_of_lt re rs hr,
    compareLoop_eq mem lb ls le rb rs re hl hr _ 0 (by omega)]
  simp only [compareSpec, List.range_eq_range']

theorem compareSpec_values (mem : Buf) (lb ls le rb rs re : Nat) :
    compareSpec mem lb ls le rb rs re = -1
      ∨ compareSpec mem lb ls le rb rs re = 0
      ∨ compareSpec mem lb ls le rb rs re = 1 := by
  rcases hf : (List.range (min (le - ls) (re - rs))).find? (fun i =>
      viewBit mem lb ls le i != viewBit mem rb rs re i) with _ | j
  · simp [compareSpec, hf]
  · by_cases hv : viewBit mem lb ls le j = true
    · simp [compareSpec, hf, hv]
    · simp [compareSpec, hf, hv]

theorem compareLoop_congr (mem mem2 : Buf) (lb ls le rb rs re : Nat)
    (hl : ls < le) (hr : rs < re) :
    ∀ cnt i, i + cnt ≤ min (le - ls) (re - rs) →
      (∀ j, i ≤ j → j < i + cnt →
        viewBit mem lb ls le j = viewBit mem2 lb ls le j ∧
        viewBit mem rb rs re j = viewBit mem2 rb rs re j) →
      compareLoop mem lb ls le rb rs re i cnt
        = compareLoop mem2 lb ls le rb rs re i cnt := by
  intro cnt
  induction cnt with
  | zero =>
      intro i _ _
      rfl
  | succ cnt ih =>
      intro i hle hagree
      simp only [compareLoop,
        get_eq_viewBit mem lb ls le i (by omega),
        get_eq_viewBit mem rb rs re i (by omega),
        get_eq_viewBit mem2 lb ls le i (by omega),
        get_eq_viewBit mem2 rb rs re i (by omega)]
      obtain ⟨ha1, ha2⟩ := hagree i (Nat.le_refl i) (by omega)
      rw [ha1, ha2]
      by_cases hx : xor (viewBit mem2 lb ls le i) (viewBit mem2 rb rs re i)
          = true
      · rw [if_pos hx, if_pos hx]
      · rw [if_neg hx, if_neg hx, ih (i + 1) (by omega)
          (fun j hj1 hj2 => hagree j (by omega) (by omega))]

theorem memcmpSign_eq_zero_iff (mem : Buf) :
    ∀ cnt lb rb, (memcmpSign mem lb rb cnt = 0 ↔
      ∀ k, k < cnt → mem.getD (lb + k) 0 = mem.getD (rb + k) 0) := by
  intro cnt
  induction cnt with
  | zero =>
      intro lb rb
      constructor
      · intro _ k hk
        exact absurd hk (by omega)
      · intro _
        rfl
  | succ cnt ih =>
      intro lb rb
      rw [memcmpSign]
      by_cases hlt : mem.getD lb 0 < mem.getD rb 0
      · rw [if_pos hlt]
        constructor
        · intro h
          exact absurd h (by simp)
        · intro h
          have := h 0 (by omega)
          simp only [Nat.add_zero] at this
          omega
      · rw [if_neg hlt]
        by_cases hgt : mem.getD rb 0 < mem.getD lb 0
        · rw [if_pos hgt]
          constructor
          · intro h
            exact absurd h (by simp)
          · intro h
            have := h 0 (by omega)
            simp only [Nat.add_zero] at this
            omega
        · rw [if_neg hgt]
          rw [ih (lb + 1) (rb + 1)]
          constructor
          · intro h k hk
            cases k with
            | zero =>
                simp only [Nat.add_zero]
                omega
            | succ k =>
                have := h k (by omega)
                have heq1 : lb + 1 + k = lb + (k + 1) := by omega
                have heq2 : rb + 1 + k = rb + (k + 1) := by omega
                rw [heq1, heq2] at this
                exact this
          · intro h k hk
            have := h (k + 1) (by omega)
            have heq1 : lb + (k + 1) = lb + 1 + k := by omega
            have heq2 : rb + (k + 1) = rb + 1 + k := by omega
            rw [heq1, heq2] at this
            exact this

/-! ### Helper lemmas: text codec round trip -/

theorem viewBit_eq_testBit (mem : Buf) (base s e i : Nat) :
    viewBit mem base s e i
      = (mem.getD (base + page s e i) 0).testBit ((i + s) % CHAR_SIZE) := by
  rw [viewBit, bitAt, bitPos_div, bitPos_mod]

theorem set_self_value (mem : Buf) (base s e i : Nat) (hi : i < e - s) :
    set mem base s e i (viewBit mem base s e i) = (mem, none) := by
  rw [set_eq_ok mem base s e i _ hi]
  cases hv : viewBit mem base s e i with
  | true =>
      rw [if_pos rfl]
      rw [viewBit_eq_testBit] at hv
      rw [or_mask_of_testBit _ _ hv, set_getD_self]
  | false =>
      rw [if_neg Bool.false_ne_true]
      rw [viewBit_eq_testBit] at hv
      rw [clear_mask_of_testBit _ _ hv, set_getD_self]

theorem strLoop_ok (mem : Buf) (base s e : Nat) :
    ∀ cnt i, i + cnt ≤ e - s →
      strLoop mem base s e i cnt =
        .ok ((List.range' i cnt).map
          (fun k => if viewBit mem base s e k then '1' else '0')) := by
  intro cnt
  induction cnt with
  | zero =>
      intro i _
      rfl
  | succ cnt ih =>
      intro i hle
      rw [List.range'_succ i cnt 1]
      rw [strLoop, get_eq_viewBit mem base s e i (by omega),
        ih (i + 1) (by omega)]
      simp

theorem str_ok (mem : Buf) (base s e : Nat) (hse : s < e) :
    str mem base s e =
      .ok ((List.range' 0 (e - s)).map
        (fun k => if viewBit mem base s e k then '1' else '0')) := by
  rw [str, subSizeT_le_of_lt e s hse, if_neg (by omega)]
  exact strLoop_ok mem base s e (e - s) 0 (by omega)

theorem getD_map_range' (f : Nat → Char) (d : Char) :
    ∀ cnt i k, k < cnt → ((List.range' i cnt).map f).getD k d = f (i + k) := by
  intro cnt
  induction cnt with
  | zero =>
      intro i k hk
      exact absurd hk (by omega)
  | succ cnt ih =>
      intro i k hk
      rw [List.range'_succ i cnt 1]
      cases k with
      | zero =>
          simp
      | succ k =>
          simp only [List.map_cons, List.getD_cons_succ]
          rw [ih (i + 1) k (by omega)]
          congr 1
          omega

theorem fromStrLoop_id (mem : Buf) (base s e : Nat) (cs : List Char)
    (hcs : ∀ k, k < e - s →
      cs.getD k ' ' = (if viewBit mem base s e k then '1' else '0')) :
    ∀ cnt i, i + cnt ≤ e - s →
      fromStrLoop base s e cs mem i cnt = (mem, none) := by
  intro cnt
  induction cnt with
  | zero =>
      intro i _
      rfl
  | succ cnt ih =>
      intro i hle
      rw [fromStrLoop]
      simp only [hcs i (by omega)]
      cases hv : viewBit mem base s e i with
      | true =>
          rw [if_pos rfl]
          rw [if_neg (by decide), if_pos rfl]
          have hset := set_self_value mem base s e i (by omega)
          rw [hv] at hset
          rw [hset]
          exact ih (i + 1) (by omega)
      | false =>
          rw [if_neg Bool.false_ne_true]
          rw [if_pos rfl]
          have hset := set_self_value mem base s e i (by omega)
          rw [hv] at hset
          rw [hset]
          exact ih (i + 1) (by omega)

/-! ### Claim theorems -/

/-- C10: the overlap detector returns `true` for every pair of views
whatsoever — for any two addresses and bounds the disjunction
`left + left_width ≥ right ∨ right + right_width ≥ left` holds — so
`copy` always reduces to its identical-view check plus the
direction-choosing bit-by-bit path, and `bitwise_not` always takes its
in-place flip path; the fill-then-OR and fill-then-XOR branches are
unreachable. -/
theorem overlap_detector_always_true :
    (∀ lb ls le rb rs re : Nat, doBoundsOverlap lb ls le rb rs re = true) ∧
    (∀ (mem : Buf) (sb ss se db ds de : Nat),
      copy mem sb ss se db ds de =
        if sb = db ∧ ss = ds ∧ se = de then (mem, none)
        else copyAliasPath mem sb ss se db ds de
          (min (subSizeT se ss) (subSizeT de ds))) ∧
    (∀ (mem : Buf) (sb ss se db ds de : Nat),
      bitwise_not mem sb ss se db ds de =
        notAliasPath mem db ds de
          (min (subSizeT de ds) (subSizeT se ss)) (decide (ss < ds))) :=
  ⟨doBoundsOverlap_true, copy_alias_branch, bitwise_not_alias_branch⟩

/-- C6: `bitwise_xor` with the same view for `left` and `right` (same
pointer and same bounds) leaves every bit of the destination range clear,
under any aliasing pattern with the destination, for the nine-argument,
the range-qualified and the `(n)` call shapes. -/
theorem xor_self_zero :
    (∀ (mem : Buf) (vb vs ve db ds de : Nat), ds < de →
      ∃ m, bitwise_xor mem vb vs ve vb vs ve db ds de = (m, none) ∧
        ∀ i, i < de - ds → get m db ds de i = .ok false) ∧
    (∀ (mem : Buf) (vb db s e : Nat), s < e →
      ∃ m, bitwise_xor5 mem vb vb db s e = (m, none) ∧
        ∀ i, i < e - s → get m db s e i = .ok false) ∧
    (∀ (mem : Buf) (vb db n : Nat),
      (bitwise_xorn mem vb vb db n).2 = none ∧
      ∀ i, i < n → getn (bitwise_xorn mem vb vb db n).1 db n i
        = .ok false) := by
  have hxor : ∀ (mem : Buf) (vb vs ve db ds de : Nat), ds < de →
      ∃ m, bitwise_xor mem vb vs ve vb vs ve db ds de = (m, none) ∧
        ∀ i, i < de - ds → get m db ds de i = .ok false := by
    intro mem vb vs ve db ds de hd
    rw [bitwise_xor, if_pos ⟨rfl, rfl, rfl⟩, fill,
      subSizeT_le_of_lt de ds hd]
    obtain ⟨m, hm, hget, _⟩ :=
      fillLoop_zero_get db ds de (de - ds) 0 mem (by omega)
    exact ⟨m, hm, fun i hi => hget i (by omega) (by omega)⟩
  refine ⟨hxor, fun mem vb db s e hse => ?_, fun mem vb db n => ?_⟩
  · rw [bitwise_xor5]
    exact hxor mem vb s e db s e hse
  · rw [bitwise_xorn, if_pos rfl]
    exact ⟨rfl, fun i hi => getn_filln_false mem db n i hi⟩

/-- C6 witness at a concrete input: XOR of the view with itself into the
same view on a one-byte buffer of all-ones. -/
theorem xor_self_zero_witness :
    (0 : Nat) < 8 ∧
    ∃ m, bitwise_xor [255] 0 0 8 0 0 8 0 0 8 = (m, none) ∧
      ∀ i, i < 8 - 0 → get m 0 0 8 i = .ok false :=
  ⟨by decide, xor_self_zero.1 [255] 0 0 8 0 0 8 (by decide)⟩

/-- C9: for every buffer and every valid view, `from_str` applied to the
string produced by `str` restores every bit — indeed it leaves the whole
buffer unchanged and raises no error, since `str` renders local index 0
first as `'1'`/`'0'` and `from_str` writes the same bits back in the same
order. -/
theorem str_from_str_roundtrip (mem : Buf) (base s e : Nat)
    (cs : List Char) (hse : s < e) (hstr : str mem base s e = .ok cs) :
    from_str mem base s e cs = (mem, none) := by
  rw [str_ok mem base s e hse] at hstr
  have hcs : cs = (List.range' 0 (e - s)).map
      (fun k => if viewBit mem base s e k then '1' else '0') := by
    injection hstr with h
    exact h.symm
  subst hcs
  rw [from_str]
  have hlen : ((List.range' 0 (e - s)).map
      (fun k => if viewBit mem base s e k then '1' else '0')).length
      = e - s := by
    rw [List.length_map, List.length_range']
  rw [subSizeT_le_of_lt e s hse, hlen, Nat.min_self]
  refine fromStrLoop_id mem base s e _ (fun k hk => ?_) (e - s) 0 (by omega)
  rw [getD_map_range' _ _ (e - s) 0 k hk]
  simp

/-- C9 witness: round trip on the 7-bit view of the byte 0xAD. -/
theorem str_from_str_roundtrip_witness :
    from_str [173] 0 0 7 ['1', '0', '1', '1', '0', '1', '0']
      = ([173], none) :=
  str_from_str_roundtrip [173] 0 0 7
    ['1', '0', '1', '1', '0', '1', '0'] (by decide) (by rfl)

/-- C2 counterexample: at buffer bytes [0x01, 0x02] with `left` at address
0 and `right` at address 1, local bit 0 is the first differing index and
`left`'s bit is set, so the claim demands `+1` from every call shape; the
bounded form returns `+1`, but the unqualified `(left, right, n_bits)`
form is `memcmp` over whole bytes and returns a negative value
(`0x01 < 0x02` as byte values). -/
theorem compare_n_form_counterexample :
    compare [1, 2] 0 0 8 1 0 8 = .ok 1 ∧
    comparen [1, 2] 0 1 8 = -1 ∧
    viewBit [1, 2] 0 0 8 0 = true ∧
    viewBit [1, 2] 1 0 8 0 = false :=
  ⟨by rfl, by rfl, by rfl, by rfl⟩

/-- C2 amended: the bounded and `(start_bit, end_bit)` forms of `compare`
scan local index 0 upward over `min(left_width, right_width)`, return `+1`
at the first differing index when `left`'s bit is set and `-1` otherwise,
return `0` when no index differs, always yield one of `-1`, `0`, `+1`, and
are unaffected by bits outside the common range; the `(left, right,
n_bits)` form instead computes the sign of a bytewise `memcmp` over
`size(n_bits)` bytes, which is `0` exactly when those whole bytes —
including any trailing bits of a partial final byte — are equal. -/
theorem compare_scan_corrected :
    (∀ (mem : Buf) (lb ls le rb rs re : Nat), ls < le → rs < re →
      compare mem lb ls le rb rs re
        = .ok (compareSpec mem lb ls le rb rs re)) ∧
    (∀ (mem : Buf) (lb rb s e : Nat), s < e →
      compare4 mem lb rb s e = .ok (compareSpec mem lb s e rb s e)) ∧
    (∀ (mem : Buf) (lb ls le rb rs re : Nat),
      compareSpec mem lb ls le rb rs re = -1
        ∨ compareSpec mem lb ls le rb rs re = 0
        ∨ compareSpec mem lb ls le rb rs re = 1) ∧
    (∀ (mem mem2 : Buf) (lb ls le rb rs re : Nat), ls < le → rs < re →
      (∀ j, j < min (le - ls) (re - rs) →
        viewBit mem lb ls le j = viewBit mem2 lb ls le j ∧
        viewBit mem rb rs re j = viewBit mem2 rb rs re j) →
      compare mem lb ls le rb rs re = compare mem2 lb ls le rb rs re) ∧
    (∀ (mem : Buf) (lb rb n : Nat),
      (comparen mem lb rb n = 0 ↔
        ∀ k, k < size n →
          mem.getD (lb + k) 0 = mem.getD (rb + k) 0)) := by
  refine ⟨fun mem lb ls le rb rs re hl hr =>
      compare_eq_spec mem lb ls le rb rs re hl hr,
    fun mem lb rb s e hse => ?_,
    fun mem lb ls le rb rs re =>
      compareSpec_values mem lb ls le rb rs re,
    fun mem mem2 lb ls le rb rs re hl hr hagree => ?_,
    fun mem lb rb n => ?_⟩
  · rw [compare4]
    exact compare_eq_spec mem lb s e rb s e hse hse
  · rw [compare, compare, subSizeT_le_of_lt le ls hl,
      subSizeT_le_of_lt re rs hr]
    exact compareLoop_congr mem mem2 lb ls le rb rs re hl hr _ 0
      (by omega) (fun j hj1 hj2 => hagree j (by omega))
  · rw [comparen]
    exact memcmpSign_eq_zero_iff mem (size n) lb rb

/-- C2 witness: the bounded scan on a one-byte view. -/
theorem compare_scan_corrected_witness :
    compare [5] 0 0 4 0 0 4 = .ok (compareSpec [5] 0 0 4 0 0 4) :=
  compare_scan_corrected.1 [5] 0 0 4 0 0 4 (by decide) (by decide)

/-- C3 counterexample: the `(n_bits)` form of `fill` with `n_bits = 0`
does not fail with InvalidBounds — it validates nothing and overwrites a
whole byte — and the bounded `fill` with `start_bit = end_bit = 3`
returns without error, though the claim requires InvalidBounds for
`start_bit ≥ end_bit`. -/
theorem bounds_validation_counterexample :
    filln [0] 0 0 true = [255] ∧ fill [7] 0 3 3 true = ([7], none) :=
  ⟨by rfl, by rfl⟩

/-- C3 amended: validation is per-overload and happens only inside the
single-bit accessors: the `(start_bit, end_bit)` forms of get/set/flip
fail with InvalidBounds exactly when `start_bit ≥ end_bit` (no overload
receives both `n_bits` and explicit bounds, so `end_bit - start_bit ≤
n_bits` is never checked), the `(n_bits)` forms fail with InvalidBounds
when `n_bits = 0`; but `fill` validates nothing itself: its bounded form
returns silently when `start_bit = end_bit` and its `(n_bits)` form
writes `size(n_bits) ≥ 1` bytes even when `n_bits = 0`. -/
theorem bounds_validation_corrected :
    (∀ (mem : Buf) (base s e i : Nat) (b : Bool), s ≥ e →
      get mem base s e i = .error .invalidBounds ∧
      set mem base s e i b = (mem, some .invalidBounds) ∧
      flip mem base s e i = (mem, some .invalidBounds)) ∧
    (∀ (mem : Buf) (base i : Nat) (b : Bool),
      getn mem base 0 i = .error .invalidBounds ∧
      setn mem base 0 i b = (mem, some .invalidBounds) ∧
      flipn mem base 0 i = (mem, some .invalidBounds)) ∧
    (∀ (mem : Buf) (base s : Nat) (b : Bool),
      fill mem base s s b = (mem, none)) ∧
    (∀ (mem : Buf) (base : Nat) (b : Bool),
      filln mem base 0 b = mem.set base (if b then 255 else 0)) := by
  refine ⟨fun mem base s e i b hse =>
      ⟨get_invalid_bounds mem base s e i hse,
       set_eq_err mem base s e i b hse,
       flip_invalid_bounds mem base s e i hse⟩,
    fun mem base i b =>
      ⟨getn_zero_n mem base i, setn_zero_n mem base i b,
       flipn_zero_n mem base i⟩,
    fun mem base s b => ?_, fun mem base b => ?_⟩
  · rw [fill, subSizeT_of_le s s (Nat.le_refl s), Nat.sub_self]
    rfl
  · rw [filln, if_pos (by rfl)]

/-- C3 witness: get/set/flip with crossed bounds fail with InvalidBounds
before touching memory. -/
theorem bounds_validation_corrected_witness :
    get [0] 0 5 3 0 = .error .invalidBounds ∧
    set [0] 0 5 3 0 true = ([0], some .invalidBounds) ∧
    flip [0] 0 5 3 0 = ([0], some .invalidBounds) :=
  bounds_validation_corrected.1 [0] 0 5 3 0 true (by decide)

/-- C4 counterexample: a soft-bounded view of width 4 filled through the
`(n_bits)` overload has the trailing bits of its partial final byte
overwritten: `fill([0x00], 4, true)` memsets the whole byte to 0xFF, so
absolute bit 4 — outside the view — changes from 0 to 1, contradicting
the claim that such bits are left unchanged. -/
theorem fill_soft_bounded_counterexample :
    filln [0] 0 4 true = [255] ∧ bitAt [255] 4 = true ∧
    bitAt [0] 4 = false :=
  ⟨by rfl, by rfl, by rfl⟩

/-- C4 amended: the bounded `(start_bit, end_bit)` overload of `fill`
sets exactly the view's bits bit by bit and leaves every other bit of the
backing allocation unchanged, provided the view is not exactly one byte
wide at a nonzero start (the `getPage` shortcut redirects such views to
byte 0) and the allocation covers the view; the `(n_bits)` overload —
the one a soft-bounded view's width selects — writes the `size(n_bits)`
whole bytes, so every bit of those bytes, including the trailing bits of
a partial final byte, becomes `b`, while bits outside those bytes are
unchanged. -/
theorem fill_frame_corrected :
    (∀ (mem : Buf) (base s e : Nat) (b : Bool),
      s < e → (e - s = CHAR_SIZE → s = 0) →
      (∀ k, k < e - s → base + (k + s) / CHAR_SIZE < mem.length) →
      ∃ m, fill mem base s e b = (m, none) ∧
        ∀ q, bitAt m q =
          if CHAR_SIZE * base + s ≤ q ∧ q < CHAR_SIZE * base + e then b
          else bitAt mem q) ∧
    (∀ (mem : Buf) (base n : Nat) (b : Bool) (q : Nat),
      base + size n ≤ mem.length →
      (CHAR_SIZE * base ≤ q ∧ q < CHAR_SIZE * (base + size n) →
        bitAt (filln mem base n b) q = b) ∧
      ((q < CHAR_SIZE * base ∨ CHAR_SIZE * (base + size n) ≤ q) →
        bitAt (filln mem base n b) q = bitAt mem q)) := by
  constructor
  · intro mem base s e b hse hq hlen
    obtain ⟨m, hm, _, hbits⟩ := fill_writes mem base s e b hse hq hlen
    exact ⟨m, hm, hbits⟩
  · intro mem base n b q hlen
    have hbyte : (filln mem base n b).getD (q / CHAR_SIZE) 0 =
        if base ≤ q / CHAR_SIZE ∧ q / CHAR_SIZE < base + size n
            ∧ q / CHAR_SIZE < mem.length
        then (if b then 255 else 0) else mem.getD (q / CHAR_SIZE) 0 := by
      rw [filln_eq_memsetBytes, getD_memsetBytes]
    constructor
    · intro ⟨h1, h2⟩
      have hdiv1 : base ≤ q / CHAR_SIZE := by
        simp only [CHAR_SIZE] at h1 ⊢
        omega
      have hdiv2 : q / CHAR_SIZE < base + size n := by
        simp only [CHAR_SIZE] at h2 ⊢
        omega
      rw [bitAt, hbyte, if_pos ⟨hdiv1, hdiv2, by omega⟩]
      cases b with
      | true =>
          rw [if_pos rfl]
          have h255 : (255 : Nat) = 2 ^ 8 - 1 := by rfl
          rw [h255, Nat.testBit_two_pow_sub_one]
          have : q % CHAR_SIZE < 8 := Nat.mod_lt q (by decide)
          simp [this]
      | false =>
          rw [if_neg Bool.false_ne_true]
          simp
    · intro hout
      rw [bitAt, hbyte, if_neg, bitAt]
      intro ⟨h1, h2, _⟩
      rcases hout with hlt | hge
      · have : q / CHAR_SIZE < base := by
          simp only [CHAR_SIZE] at hlt ⊢
          omega
        omega
      · have : base + size n ≤ q / CHAR_SIZE := by
          simp only [CHAR_SIZE] at hge ⊢
          omega
        omega

/-- C4 witness: bounded fill of the interior view [1,7) of a two-byte
buffer sets bits 1..6 and preserves bits 0, 7 and the second byte. -/
theorem fill_frame_corrected_witness :
    ∃ m, fill [129, 255] 0 1 7 true = (m, none) ∧
      ∀ q, bitAt m q =
        if CHAR_SIZE * 0 + 1 ≤ q ∧ q < CHAR_SIZE * 0 + 7 then true
        else bitAt [129, 255] q :=
  fill_frame_corrected.1 [129, 255] 0 1 7 true (by decide) (by decide)
    (by decide)

/-- C8 counterexample: `set` through the view [8,16) — width exactly one
byte — writes byte 0 because of the `getPage` one-byte shortcut: absolute
bit 0 changes although the claim allows only absolute bit
`start_bit + i = 8` to change (which here stays clear). -/
theorem set_frame_counterexample :
    set [0, 0] 0 8 16 0 true = ([1, 0], none) ∧
    bitAt [1, 0] 0 = true ∧ bitAt [0, 0] 0 = false ∧
    bitAt [1, 0] 8 = false ∧ bitAt [0, 0] 8 = false :=
  ⟨by rfl, by rfl, by rfl, by rfl, by rfl⟩

/-- C8 amended: for a valid local index whose addressed byte lies inside
the allocation, `set(view, i, b)` leaves `get(view, i) = b` and preserves
every bit of the buffer other than the single addressed position
`CHAR_SIZE * (base + page(i)) + (i + start_bit) % CHAR_SIZE`, where
`page(i)` is byte 0 when `end_bit - start_bit = CHAR_SIZE` and
`(i + start_bit) / CHAR_SIZE` otherwise. -/
theorem set_frame_corrected (mem : Buf) (base s e i : Nat) (b : Bool)
    (hi : i < e - s) (hlen : base + page s e i < mem.length) :
    ∃ m, set mem base s e i b = (m, none) ∧
      get m base s e i = .ok b ∧
      ∀ q, q ≠ bitPos base s e i → bitAt m q = bitAt mem q := by
  refine ⟨(set mem base s e i b).1, ?_,
    set_get_back mem base s e i b hi hlen,
    fun q hq => set_bitAt_ne mem base s e i b hi q hq⟩
  rw [set_eq_ok mem base s e i b hi]

/-- C8 witness: set bit 3 of a two-byte buffer through the full view. -/
theorem set_frame_corrected_witness :
    ∃ m, set [0, 0] 0 0 16 3 true = (m, none) ∧
      get m 0 0 16 3 = .ok true ∧
      ∀ q, q ≠ bitPos 0 0 16 3 → bitAt m q = bitAt [0, 0] q :=
  set_frame_corrected [0, 0] 0 0 16 3 true (by decide) (by decide)

/-- C1: on the buffer [0x80, 0x00] with source view [0,8) and destination
view [2,10) of the same allocation, `copy` does not equal the reference
that stages the source bits in a fresh non-aliased temporary: the
destination view is exactly one byte wide, so the `getPage` shortcut
addresses byte 0 for it and the descending loop re-reads bits it already
overwrote; the code produces [0x0A, 0x00], the reference [0x02, 0x00]. -/
theorem copy_alias_fidelity_bug :
    copy [128, 0] 0 0 8 0 2 10 = ([10, 0], none) ∧
    copyRef [128, 0] 0 0 8 0 2 10 = ([2, 0], none) ∧
    ([10, 0] : Buf) ≠ [2, 0] :=
  ⟨by rfl, by rfl, by decide⟩

/-- C7: `shift_left` of the 16-bit view of [0x00, 0xFF] by 8 returns the
buffer unchanged instead of moving the high byte down: the inner `copy`
reads its 8-bit-wide source window [8,16) through the `getPage` one-byte
shortcut (byte 0, all zeros) and the trailing `fill` also writes byte 0,
so local bit 0 of the result is still clear although the claim requires
it to equal the original bit at index 0 + 8, which is set.  Likewise
`shift_right` of [0xFF, 0x00] by 8 zeroes the buffer entirely: its copy
writes the 8-bit-wide destination window [8,16) through byte 0 and the
leading fill then clears byte 0, so local bit 8 of the result is clear
although the claim requires it to equal the original bit 0, which is
set. -/
theorem shift_left_page_shortcut_bug :
    (shift_left [0, 255] 0 0 16 8 = ([0, 255], none) ∧
      viewBit [0, 255] 0 0 16 8 = true ∧
      viewBit [0, 255] 0 0 16 0 = false) ∧
    (shift_right [255, 0] 0 0 16 8 = ([0, 0], none) ∧
      viewBit [255, 0] 0 0 16 0 = true ∧
      viewBit [0, 0] 0 0 16 8 = false) :=
  ⟨⟨by rfl, by rfl, by rfl⟩, ⟨by rfl, by rfl, by rfl⟩⟩
